import Mathlib

/-!
# Verification of the PromptreeCLI conversation store

Shallow embedding of the persistence layer (`database.py`), the tree layer
(`conversation_tree.py`) and the relevant CLI operations (`cli.py`) of the
PromptreeCLI repository, together with proofs about the spec's claims.

Modelling conventions:
* A SQLite row of the `conversations` table is a `Conversation`; the table is a
  `List Conversation` in insertion (rowid) order.  `AUTOINCREMENT` is modelled
  by the `seq` counter (SQLite's `sqlite_sequence`): ids are never reused.
* The `conversation_links` table is a `List (Nat × Nat)` of
  `(conversation_id, linked_conversation_id)` rows in insertion order; its
  `UNIQUE(conversation_id, linked_conversation_id)` constraint is checked on
  insert exactly as SQLite does (ordered pair only).
* The Python `sqlite3` module never executes `PRAGMA foreign_keys = ON`, and
  the application never does either, so the declared
  `ON DELETE CASCADE` foreign keys of `conversation_links` are inert: deleting
  conversation rows does not touch link rows.  The embedding reflects this.
* `DATETIME` values are modelled as `Nat` (ordering of the stored values is
  all the code relies on).
* While-loops / recursions of the source that are not structurally bounded
  (`get_conversation_chain`, `get_conversation_path`,
  `get_conversation_tree`, the recursive CTE of
  `get_descendant_conversations`) are modelled with explicit steps or fuel;
  a result of `none` at the top level means the source code does not
  terminate within the given number of iterations.
-/

namespace Promptree

/-- A row of the `conversations` table
(`database.py`, `init_db`, lines 29-41). -/
structure Conversation where
  id : Nat
  subject : String
  model_name : String
  user_prompt : String
  llm_response : Option String
  pid : Option Nat
  user_prompt_timestamp : Nat
  llm_response_timestamp : Option Nat
deriving Repr, DecidableEq

/-- The SQLite database state: both tables plus the `AUTOINCREMENT`
sequence for `conversations.id`. -/
structure DBState where
  conversations : List Conversation
  links : List (Nat × Nat)
  seq : Nat
deriving Repr, DecidableEq

/-- Ids of all conversation rows, in row order. -/
def DBState.ids (st : DBState) : List Nat :=
  st.conversations.map (·.id)

/-- `DatabaseManager.get_conversation` (database.py:100-122):
`SELECT ... FROM conversations WHERE id = ?` with `fetchone`. -/
def get_conversation (st : DBState) (conv_id : Nat) : Option Conversation :=
  st.conversations.find? (fun c => c.id == conv_id)

/-- `DatabaseManager.add_conversation` (database.py:64-98): INSERT a new row,
returning the fresh `lastrowid`. -/
def add_conversation (st : DBState) (subject model_name user_prompt : String)
    (llm_response : Option String) (pid : Option Nat)
    (user_prompt_timestamp : Nat) (llm_response_timestamp : Option Nat) :
    DBState × Nat :=
  let newId := st.seq + 1
  ({ st with
      conversations := st.conversations ++
        [{ id := newId, subject := subject, model_name := model_name,
           user_prompt := user_prompt, llm_response := llm_response,
           pid := pid, user_prompt_timestamp := user_prompt_timestamp,
           llm_response_timestamp := llm_response_timestamp }],
      seq := newId },
   newId)

/-- Comparison used by `ORDER BY user_prompt_timestamp ASC`. -/
def tsLE (a b : Conversation) : Prop :=
  a.user_prompt_timestamp ≤ b.user_prompt_timestamp

instance : DecidableRel tsLE := fun a b =>
  inferInstanceAs (Decidable (a.user_prompt_timestamp ≤ b.user_prompt_timestamp))

/-- Comparison used by `ORDER BY user_prompt_timestamp DESC`. -/
def tsGE (a b : Conversation) : Prop :=
  b.user_prompt_timestamp ≤ a.user_prompt_timestamp

instance : DecidableRel tsGE := fun a b =>
  inferInstanceAs (Decidable (b.user_prompt_timestamp ≤ a.user_prompt_timestamp))

instance : IsTotal Conversation tsGE :=
  ⟨fun a b => (Nat.le_total b.user_prompt_timestamp a.user_prompt_timestamp)⟩

instance : IsTrans Conversation tsGE :=
  ⟨fun _ _ _ h1 h2 => Nat.le_trans h2 h1⟩

/-- `DatabaseManager.get_child_conversations` (database.py:168-191):
`WHERE pid = ? ORDER BY user_prompt_timestamp ASC`. -/
def get_child_conversations (st : DBState) (parent_id : Nat) : List Conversation :=
  (st.conversations.filter (fun c => c.pid == some parent_id)).insertionSort tsLE

/-- One iteration of the `while current_id is not None` loop of
`DatabaseManager.get_conversation_chain` (database.py:133-144). -/
structure ChainState where
  chain : List Conversation
  current : Option Nat
deriving Repr, DecidableEq

/-- Loop body of `get_conversation_chain`: fetch the current row; on a miss
`break`, otherwise prepend the row and move to its `pid`. -/
def chainStep (st : DBState) (s : ChainState) : ChainState :=
  match s.current with
  | none => s
  | some cid =>
    match get_conversation st cid with
    | none => { s with current := none }
    | some conv => { chain := conv :: s.chain, current := conv.pid }

/-- Run the chain loop for at most `fuel` iterations; `none` means the loop
is still running after `fuel` iterations (the Python loop has no bound). -/
def chainAux (st : DBState) : Nat → ChainState → Option (List Conversation)
  | 0, s => if s.current = none then some s.chain else none
  | fuel + 1, s =>
    if s.current = none then some s.chain else chainAux st fuel (chainStep st s)

/-- `DatabaseManager.get_conversation_chain` (database.py:124-144), given
one more iteration than there are rows (enough for any acyclic store). -/
def get_conversation_chain (st : DBState) (conv_id : Nat) :
    Option (List Conversation) :=
  chainAux st (st.conversations.length + 1) { chain := [], current := some conv_id }

/-- Loop state of `ConversationTree.get_conversation_path`
(conversation_tree.py:88-109). -/
structure PathState where
  path : List Nat
  current : Option Nat
deriving Repr, DecidableEq

/-- Loop body of `get_conversation_path`: unconditionally prepend the current
id, then look the row up to find the next id (absent row ends the walk). -/
def pathStep (st : DBState) (s : PathState) : PathState :=
  match s.current with
  | none => s
  | some cid =>
    { path := cid :: s.path,
      current :=
        match get_conversation st cid with
        | some conv => conv.pid
        | none => none }

/-- Run the path loop for at most `fuel` iterations (`none` = still running). -/
def pathAux (st : DBState) : Nat → PathState → Option (List Nat)
  | 0, s => if s.current = none then some s.path else none
  | fuel + 1, s =>
    if s.current = none then some s.path else pathAux st fuel (pathStep st s)

/-- `ConversationTree.get_conversation_path` (conversation_tree.py:88-109). -/
def get_conversation_path (st : DBState) (conv_id : Nat) : Option (List Nat) :=
  pathAux st (st.conversations.length + 1) { path := [], current := some conv_id }

/-- Rows whose `pid` lies in `frontier`: one level of the recursive CTE join
`JOIN descendants d ON c.pid = d.id`. -/
def children_of_any (st : DBState) (frontier : List Nat) : List Conversation :=
  st.conversations.filter (fun c =>
    match c.pid with
    | some p => frontier.contains p
    | none => false)

/-- Levels of the recursive CTE, concatenated, starting from `frontier` and
running for at most `fuel` levels.  On an acyclic store every level beyond
the row count is empty, so `fuel = length + 1` reproduces the CTE exactly. -/
def descendantsAux (st : DBState) : Nat → List Nat → List Conversation
  | 0, _ => []
  | fuel + 1, frontier =>
    let next := children_of_any st frontier
    next ++ descendantsAux st fuel (next.map (·.id))

/-- `DatabaseManager.get_descendant_conversations` (database.py:193-226):
recursive CTE collecting every row whose `pid` chain leads to `parent_id`
(the row itself excluded). -/
def get_descendant_conversations (st : DBState) (parent_id : Nat) :
    List Conversation :=
  descendantsAux st (st.conversations.length + 1) [parent_id]

/-- `DatabaseManager.update_subject` (database.py:228-245). -/
def update_subject (st : DBState) (conv_id : Nat) (new_subject : String) :
    DBState :=
  { st with
    conversations := st.conversations.map (fun c =>
      if c.id == conv_id then { c with subject := new_subject } else c) }

/-- `DatabaseManager.update_conversation_parent` (database.py:247-264):
`UPDATE conversations SET pid = ? WHERE id = ?`. -/
def update_conversation_parent (st : DBState) (conv_id : Nat)
    (new_parent_id : Option Nat) : DBState :=
  { st with
    conversations := st.conversations.map (fun c =>
      if c.id == conv_id then { c with pid := new_parent_id } else c) }

/-- `DatabaseManager.delete_conversation` (database.py:266-291): recursive CTE
rooted at `WHERE id = ?`, then `DELETE FROM conversations WHERE id IN
descendants`.  Link rows are left untouched: the connection never enables
`PRAGMA foreign_keys`, so the `ON DELETE CASCADE` clauses of
`conversation_links` (database.py:53-54) are not enforced by SQLite. -/
def delete_conversation (st : DBState) (conv_id : Nat) : DBState :=
  let base := (st.conversations.filter (fun c => c.id == conv_id)).map (·.id)
  let doomed :=
    base ++ (descendantsAux st (st.conversations.length + 1) base).map (·.id)
  { st with
    conversations := st.conversations.filter (fun c => !(doomed.contains c.id)) }

/-- Result of `DatabaseManager.get_conversation_tree`: a node annotated with
recursively built children. -/
inductive ConvTree where
  | mk (conv : Conversation) (children : List ConvTree)

/-- Root row of a materialized tree. -/
def ConvTree.conv : ConvTree → Conversation
  | .mk c _ => c

/-- Children of a materialized tree. -/
def ConvTree.children : ConvTree → List ConvTree
  | .mk _ cs => cs

/-- Root id of a materialized tree. -/
def ConvTree.rootId (t : ConvTree) : Nat := t.conv.id

mutual
/-- `DatabaseManager.get_conversation_tree` (database.py:293-325) with a fuel
bound on the recursion depth (the Python recursion is unbounded).  `none`
means the recursion exceeds `fuel` nested calls; `some none` is the Python
`None` result for an absent root; `some (some t)` is a completed tree. -/
def treeAux (st : DBState) : Nat → Nat → Option (Option ConvTree)
  | 0, _ => none
  | fuel + 1, root_id =>
    match get_conversation st root_id with
    | none => some none
    | some conv =>
      match treeChildren st fuel
          ((get_child_conversations st root_id).map (·.id)) with
      | none => none
      | some ts => some (some (ConvTree.mk conv ts))
termination_by fuel root_id => (fuel, 0)

/-- The `for child in children` loop of `get_conversation_tree`
(database.py:319-323): recurse on each child id, appending the subtree when
it is truthy (`if child_tree:`); a diverging child diverges the whole call. -/
def treeChildren (st : DBState) : Nat → List Nat → Option (List ConvTree)
  | _, [] => some []
  | fuel, cid :: cids =>
    match treeAux st fuel cid with
    | none => none
    | some none => treeChildren st fuel cids
    | some (some t) =>
      match treeChildren st fuel cids with
      | none => none
      | some ts => some (t :: ts)
termination_by fuel l => (fuel, l.length + 1)
end

/-- `get_conversation_tree` run with recursion depth `length + 1`, enough
for any acyclic store. -/
def get_conversation_tree (st : DBState) (root_id : Nat) :
    Option (Option ConvTree) :=
  treeAux st (st.conversations.length + 1) root_id

/-- Errors raised by `DatabaseManager.add_conversation_link`
(database.py:355-381): the explicit self-link `ValueError` and the
`ValueError` re-raised on the UNIQUE-constraint `IntegrityError`. -/
inductive LinkError where
  | selfLink
  | alreadyExists
deriving Repr, DecidableEq

/-- `DatabaseManager.add_conversation_link` (database.py:355-381): reject a
self-link, then INSERT; the `UNIQUE(conversation_id, linked_conversation_id)`
constraint only fires for the identical ordered pair. -/
def add_conversation_link (st : DBState) (conversation_id linked_conversation_id : Nat) :
    Except LinkError DBState :=
  if conversation_id = linked_conversation_id then
    .error .selfLink
  else if st.links.contains (conversation_id, linked_conversation_id) then
    .error .alreadyExists
  else
    .ok { st with links := st.links ++ [(conversation_id, linked_conversation_id)] }

/-- `DatabaseManager.remove_conversation_link` (database.py:383-399): delete
the row in the given orientation only (a no-op when absent). -/
def remove_conversation_link (st : DBState)
    (conversation_id linked_conversation_id : Nat) : DBState :=
  { st with
    links := st.links.filter (fun l =>
      !(l.1 == conversation_id && l.2 == linked_conversation_id)) }

/-- `DatabaseManager.remove_all_conversation_links` (database.py:401-423):
delete every link row touching the conversation, in both orientations. -/
def remove_all_conversation_links (st : DBState) (conversation_id : Nat) :
    DBState :=
  { st with
    links := st.links.filter (fun l =>
      !(l.1 == conversation_id) && !(l.2 == conversation_id)) }

/-- `DatabaseManager.get_conversation_link_ids` (database.py:453-478): for
every link row touching the id, return the opposite endpoint. -/
def get_conversation_link_ids (st : DBState) (conversation_id : Nat) : List Nat :=
  (st.links.filter (fun l =>
      l.1 == conversation_id || l.2 == conversation_id)).map (fun l =>
    if l.1 == conversation_id then l.2 else l.1)

/-- `DatabaseManager.get_linked_conversations` (database.py:425-451): join of
`conversations` with the link rows touching the id, excluding the id itself. -/
def get_linked_conversations (st : DBState) (conversation_id : Nat) :
    List Conversation :=
  st.links.flatMap (fun l =>
    st.conversations.filter (fun c =>
      (c.id == l.2 || c.id == l.1) &&
      (l.1 == conversation_id || l.2 == conversation_id) &&
      !(c.id == conversation_id)))

/-! ## CLI layer (`cli.py`) -/

/-- `CLIHandler._would_create_circular_reference` (cli.py:483-504):
true when the conversation is its own proposed parent or the proposed parent
appears among its descendants. -/
def would_create_circular_reference (st : DBState) (conv_id new_parent_id : Nat) :
    Bool :=
  conv_id == new_parent_id ||
    (get_descendant_conversations st conv_id).any (fun d => d.id == new_parent_id)

/-- Rejection reasons of the `edit` command paths modelled here. -/
inductive EditError where
  | notFound (id : Nat)
  | parentNotFound (id : Nat)
  | circular (id : Nat)
  | linkTargetNotFound (id : Nat)
deriving Repr, DecidableEq

/-- The `-parent` path of `CLIHandler.do_edit` (cli.py:126-129, 151-171,
227-232): the conversation must exist; a numeric new parent must exist and
pass the cycle check; `-parent None` runs no cycle check at all. -/
def editParentCheck (st : DBState) (conv_id : Nat) (new_parent : Option Nat) :
    Except EditError DBState :=
  match get_conversation st conv_id with
  | none => .error (.notFound conv_id)
  | some _ =>
    match new_parent with
    | none => .ok (update_conversation_parent st conv_id none)
    | some p =>
      match get_conversation st p with
      | none => .error (.parentNotFound p)
      | some _ =>
        if would_create_circular_reference st conv_id p then
          .error (.circular p)
        else
          .ok (update_conversation_parent st conv_id (some p))

/-- Execution loop of the `-link` path of `do_edit` (cli.py:240-246): skip a
self-target with a warning, otherwise call `add_conversation_link`.  A raised
`ValueError` escapes to the surrounding `try` (cli.py:220, 272-273), so it
aborts the remaining targets; the second component records such an abort. -/
def editLinksRun (st : DBState) (conv_id : Nat) :
    List Nat → DBState × Option LinkError
  | [] => (st, none)
  | t :: ts =>
    if t = conv_id then editLinksRun st conv_id ts
    else
      match add_conversation_link st conv_id t with
      | .ok st' => editLinksRun st' conv_id ts
      | .error e => (st, some e)

/-- The `-link` path of `CLIHandler.do_edit` (cli.py:126-129, 172-191,
234-248): the conversation must exist; every target is validated with
`get_conversation` during parsing and any miss rejects the whole command
before anything is mutated; then all existing links are removed and the new
targets are added by `editLinksRun`. -/
def editLinksCmd (st : DBState) (conv_id : Nat) (targets : List Nat) :
    Except EditError (DBState × Option LinkError) :=
  match get_conversation st conv_id with
  | none => .error (.notFound conv_id)
  | some _ =>
    match targets.find? (fun t => (get_conversation st t).isNone) with
    | some t => .error (.linkTargetNotFound t)
    | none =>
      .ok (editLinksRun (remove_all_conversation_links st conv_id) conv_id targets)

/-- Link-replacement step of `CLIHandler._edit_conversation_in_external_editor`
(cli.py:452-474): remove all links, then for each new target skip a missing
conversation with a warning, skip a self-link with a warning, and catch the
`ValueError` of `add_conversation_link` per target (so one failure does not
abort the rest). -/
def editorRelinkCore (st : DBState) (conv_id : Nat) (targets : List Nat) :
    DBState :=
  go (remove_all_conversation_links st conv_id) targets
where
  /-- The `for link_id in new_linked_ids` loop body. -/
  go : DBState → List Nat → DBState
    | st1, [] => st1
    | st1, t :: ts =>
      if (get_conversation st1 t).isNone then go st1 ts
      else if t = conv_id then go st1 ts
      else
        match add_conversation_link st1 conv_id t with
        | .ok st2 => go st2 ts
        | .error _ => go st1 ts

/-! ## Search (`cli.py:944-976`, `database.py:327-353`) -/

/-- ASCII lower-casing, as performed by SQLite's `LOWER` (only the ASCII
letters A-Z, code points 65-90, are folded by adding 32; everything else is
returned unchanged). -/
def asciiLower (c : Char) : Char :=
  if 65 ≤ c.toNat ∧ c.toNat ≤ 90 then Char.ofNat (c.toNat + 32) else c

/-- The `search_term.replace('*', '%')` step of `do_search` (cli.py:959),
per character. -/
def starToPct (c : Char) : Char :=
  if c == '*' then '%' else c

/-- SQLite `LIKE` on lists of characters: `%` matches any run, `_` any single
character, everything else literally.  The `%` case tries every suffix of the
text. -/
def likeMatch : List Char → List Char → Bool
  | [], t => t.isEmpty
  | p :: ps, t =>
    if p = '%' then t.tails.any (fun s => likeMatch ps s)
    else if p = '_' then !t.isEmpty && likeMatch ps t.tail
    else
      (match t.head? with
       | some c => p == c
       | none => false) && likeMatch ps t.tail

/-- One `LOWER(field) LIKE LOWER(?)` comparison. -/
def likeLower (pat : List Char) (field : String) : Bool :=
  likeMatch (pat.map asciiLower) (field.data.map asciiLower)

/-- The WHERE clause of `DatabaseManager.search_conversations`
(database.py:340-348): subject, user_prompt, or a non-NULL llm_response. -/
def rowMatches (pat : List Char) (c : Conversation) : Bool :=
  likeLower pat c.subject || likeLower pat c.user_prompt ||
    (match c.llm_response with
     | some r => likeLower pat r
     | none => false)

/-- `DatabaseManager.search_conversations` (database.py:327-353): matching
rows ordered by `user_prompt_timestamp DESC`. -/
def search_conversations (st : DBState) (pat : List Char) : List Conversation :=
  (st.conversations.filter (rowMatches pat)).insertionSort tsGE

/-- Pattern preparation of `CLIHandler.do_search` (cli.py:952-963): map `*`
to `%`; a term without `*` is wrapped in `%...%`. -/
def doSearchPattern (term : List Char) : List Char :=
  let r := term.map starToPct
  if term.contains '*' then r else '%' :: (r ++ ['%'])

/-- `CLIHandler.do_search` (cli.py:944-976): prepare the pattern and query
`search_conversations`. -/
def do_search (st : DBState) (term : List Char) : List Conversation :=
  search_conversations st (doSearchPattern term)

/-! ## Create / reparent operation sequences (for the forest invariant) -/

/-- A create or reparent request, as issued by the CLI layer. -/
inductive Op where
  | create (subject model_name user_prompt : String)
      (llm_response : Option String) (pid : Option Nat)
      (user_prompt_timestamp : Nat) (llm_response_timestamp : Option Nat)
  | reparent (conv_id : Nat) (new_parent : Option Nat)

/-- Apply one operation the way the CLI does: a create validates a non-null
parent with `get_conversation` (cli.py:626-629, 694-698) before calling
`add_conversation`; a reparent is `editParentCheck`.  `none` means the
operation was rejected. -/
def applyOp (st : DBState) : Op → Option DBState
  | .create s m p r pid pt rt =>
    match pid with
    | none => some (add_conversation st s m p r none pt rt).1
    | some pp =>
      if (get_conversation st pp).isSome then
        some (add_conversation st s m p r (some pp) pt rt).1
      else
        none
  | .reparent cid np => (editParentCheck st cid np).toOption

/-- Apply a sequence of operations; `some st'` exactly when every operation
in turn was individually accepted. -/
def applyOps (st : DBState) (ops : List Op) : Option DBState :=
  ops.foldlM applyOp st

/-! ## Semantic relations on a store -/

/-- The parent id recorded for `cid` (via row lookup, as all the traversal
code reads it). -/
def parentOf (st : DBState) (cid : Nat) : Option Nat :=
  (get_conversation st cid).bind (·.pid)

/-- One parent-pointer step: the row of `a` exists and names `b` as parent. -/
def upStep (st : DBState) (a b : Nat) : Prop :=
  parentOf st a = some b

/-- `b` is a proper ancestor of `a`: a nonempty chain of parent pointers
from `a` reaches `b`.  Equivalently, `a` is a transitive descendant of `b`. -/
def Anc (st : DBState) (a b : Nat) : Prop :=
  Relation.TransGen (upStep st) a b

/-- The parent relation has no cycles: no node is its own ancestor. -/
def Acyclic (st : DBState) : Prop :=
  ∀ x, ¬ Anc st x x

/-- Well-formed store: row ids are unique (`id INTEGER PRIMARY KEY`). -/
def WF (st : DBState) : Prop :=
  st.ids.Nodup

/-- Every non-null `pid` refers to an existing row. -/
def PidsClosed (st : DBState) : Prop :=
  ∀ c ∈ st.conversations, ∀ p, c.pid = some p → p ∈ st.ids

/-- All ids ever handed out are bounded by the sequence counter. -/
def SeqBound (st : DBState) : Prop :=
  ∀ c ∈ st.conversations, c.id ≤ st.seq

/-- Invariant maintained by accepted create/reparent sequences. -/
def Inv (st : DBState) : Prop :=
  WF st ∧ SeqBound st ∧ PidsClosed st ∧ Acyclic st

/-- The forest property claimed by the spec: no node is its own ancestor,
and each id determines at most one row (hence at most one parent). -/
def Forest (st : DBState) : Prop :=
  Acyclic st ∧
    ∀ c1 ∈ st.conversations, ∀ c2 ∈ st.conversations, c1.id = c2.id → c1 = c2

/-- Ids that lie above `x`: `x` itself and all its ancestors, restricted to
existing rows.  Used as a termination / completeness measure. -/
def upSet (st : DBState) (x : Nat) : Set Nat :=
  { y | y ∈ st.ids ∧ (y = x ∨ Anc st x y) }

/-! ## Basic lemmas about row lookup -/

lemma get_conversation_mem {st : DBState} {cid : Nat} {c : Conversation}
    (h : get_conversation st cid = some c) :
    c ∈ st.conversations ∧ c.id = cid := by
  refine ⟨List.mem_of_find?_eq_some h, ?_⟩
  have hp := List.find?_some h
  simpa using hp

lemma find?_id_of_nodup {l : List Conversation}
    (h : (l.map (·.id)).Nodup) {c : Conversation} (hc : c ∈ l) :
    l.find? (fun x => x.id == c.id) = some c := by
  induction l with
  | nil => cases hc
  | cons a as ih =>
    simp only [List.map_cons, List.nodup_cons, List.mem_map] at h
    rcases List.mem_cons.mp hc with rfl | hmem
    · simp [List.find?_cons]
    · have hne : (a.id == c.id) = false := by
        simp only [beq_eq_false_iff_ne, ne_eq]
        intro he
        exact h.1 ⟨c, hmem, he.symm⟩
      simpa [List.find?_cons, hne] using ih h.2 hmem

lemma get_conversation_of_mem {st : DBState} (hw : WF st)
    {c : Conversation} (hc : c ∈ st.conversations) :
    get_conversation st c.id = some c :=
  find?_id_of_nodup hw hc

lemma upStep_mem_ids {st : DBState} {a b : Nat} (h : upStep st a b) :
    a ∈ st.ids := by
  unfold upStep parentOf at h
  cases hg : get_conversation st a with
  | none => simp [hg] at h
  | some c =>
    obtain ⟨hm, hid⟩ := get_conversation_mem hg
    exact hid ▸ List.mem_map.mpr ⟨c, hm, rfl⟩

lemma upStep_pid {st : DBState} {a b : Nat} (h : upStep st a b) :
    ∃ c ∈ st.conversations, c.id = a ∧ c.pid = some b := by
  unfold upStep parentOf at h
  cases hg : get_conversation st a with
  | none => simp [hg] at h
  | some c =>
    obtain ⟨hm, hid⟩ := get_conversation_mem hg
    exact ⟨c, hm, hid, by simpa [hg] using h⟩

/-- Sufficient criterion for acyclicity: every stored parent id is smaller
than the row id. -/
lemma acyclic_of_pid_lt {st : DBState}
    (h : ∀ c ∈ st.conversations, ∀ p, c.pid = some p → p < c.id) :
    Acyclic st := by
  have hstep : ∀ a b, upStep st a b → b < a := by
    intro a b hab
    obtain ⟨c, hm, hid, hpid⟩ := upStep_pid hab
    exact hid ▸ h c hm b hpid
  have htrans : ∀ a b, Anc st a b → b < a := by
    intro a b hab
    induction hab with
    | single hs => exact hstep _ _ hs
    | tail _ hs ih => exact (hstep _ _ hs).trans ih
  intro x hx
  exact absurd (htrans x x hx) (lt_irrefl x)

/-! ## The measure set used for termination and completeness -/

lemma upSet_subset_ids (st : DBState) (x : Nat) :
    upSet st x ⊆ { y | y ∈ st.ids } :=
  fun _ hy => hy.1

lemma upSet_finite (st : DBState) (x : Nat) : (upSet st x).Finite :=
  Set.Finite.subset st.ids.finite_toSet (upSet_subset_ids st x)

lemma upSet_ncard_le (st : DBState) (x : Nat) :
    (upSet st x).ncard ≤ st.conversations.length := by
  have h1 : (upSet st x).ncard ≤ ({ y | y ∈ st.ids } : Set Nat).ncard :=
    Set.ncard_le_ncard (upSet_subset_ids st x) st.ids.finite_toSet
  have h2 : ({ y | y ∈ st.ids } : Set Nat) = ↑st.ids.toFinset := by
    ext y; simp
  have h3 : ({ y | y ∈ st.ids } : Set Nat).ncard ≤ st.ids.length := by
    rw [h2, Set.ncard_coe_Finset]
    exact st.ids.toFinset_card_le
  have h4 : st.ids.length = st.conversations.length := by
    simp [DBState.ids]
  omega

/-- Walking one parent step strictly shrinks the `upSet` measure on an
acyclic store (used both for upward walks and downward recursion). -/
lemma upSet_ncard_lt {st : DBState} (hA : Acyclic st) {a b : Nat}
    (h : upStep st a b) :
    (upSet st b).ncard < (upSet st a).ncard := by
  have hsub : upSet st b ⊆ upSet st a := by
    intro y hy
    obtain ⟨hids, hcase⟩ := hy
    refine ⟨hids, Or.inr ?_⟩
    rcases hcase with rfl | hanc
    · exact Relation.TransGen.single h
    · exact Relation.TransGen.head h hanc
  have hamem : a ∈ upSet st a := ⟨upStep_mem_ids h, Or.inl rfl⟩
  have hanot : a ∉ upSet st b := by
    rintro ⟨-, rfl | hanc⟩
    · exact hA a (Relation.TransGen.single h)
    · exact hA a (Relation.TransGen.head h hanc)
  have hss : upSet st b ⊂ upSet st a :=
    (Set.ssubset_iff_of_subset hsub).mpr ⟨a, hamem, hanot⟩
  exact Set.ncard_lt_ncard hss (upSet_finite st a)

/-! ## Concrete stores used as witnesses and counterexamples -/

/-- A conversation row with the fields that matter for the claims. -/
def mkConv (i : Nat) (pid : Option Nat) (ts : Nat) (subject : String) :
    Conversation :=
  { id := i, subject := subject, model_name := "m", user_prompt := "q",
    llm_response := none, pid := pid, user_prompt_timestamp := ts,
    llm_response_timestamp := none }

/-- Two nodes, node 2 a child of node 1, one link row between them. -/
def c1store : DBState :=
  { conversations := [mkConv 1 none 1 "a", mkConv 2 (some 1) 2 "b"],
    links := [(1, 2)], seq := 2 }

/-- Two unrelated nodes, no links. -/
def c2base : DBState :=
  { conversations := [mkConv 1 none 1 "a", mkConv 2 none 2 "b"],
    links := [], seq := 2 }

/-- `c2base` after `add_conversation_link 1 2`. -/
def c2mid : DBState := { c2base with links := [(1, 2)] }

/-! ## C10 -/

lemma chainAux_of_current_none {st : DBState} {fuel : Nat} {s : ChainState}
    (h : s.current = none) : chainAux st fuel s = some s.chain := by
  cases fuel <;> simp [chainAux, h]

lemma pathAux_of_current_none {st : DBState} {fuel : Nat} {s : PathState}
    (h : s.current = none) : pathAux st fuel s = some s.path := by
  cases fuel <;> simp [pathAux, h]

/-- C10: for an id that resolves to no stored node, `get_conversation_chain`
returns the empty list while `get_conversation_path` returns the one-element
list `[id]`: the path walk records the starting id before checking that it
exists, the chain walk checks first. -/
theorem c10_absent_id_chain_empty_path_singleton (st : DBState) (conv_id : Nat)
    (h : get_conversation st conv_id = none) :
    get_conversation_chain st conv_id = some [] ∧
    get_conversation_path st conv_id = some [conv_id] := by
  constructor
  · unfold get_conversation_chain
    rw [show st.conversations.length + 1 = st.conversations.length + 1 from rfl]
    simp only [chainAux, reduceCtorEq, if_false]
    have hstep : chainStep st { chain := [], current := some conv_id } =
        { chain := [], current := none } := by
      simp [chainStep, h]
    rw [hstep, chainAux_of_current_none rfl]
  · unfold get_conversation_path
    simp only [pathAux, reduceCtorEq, if_false]
    have hstep : pathStep st { path := [], current := some conv_id } =
        { path := [conv_id], current := none } := by
      simp [pathStep, h]
    rw [hstep, pathAux_of_current_none rfl]

/-- Witness for C10 at a concrete store and an absent id. -/
theorem c10_witness :
    get_conversation c1store 5 = none ∧
    (get_conversation_chain c1store 5 = some [] ∧
      get_conversation_path c1store 5 = some [5]) :=
  ⟨rfl, c10_absent_id_chain_empty_path_singleton c1store 5 rfl⟩

/-! ## C1 -/

/-- C1 (code bug): deleting node 1 of `c1store` removes node 1 and its
descendant node 2 from the `conversations` table, but the link row `(1, 2)`
survives, referencing two deleted ids: the code never enables SQLite
foreign-key enforcement, so its own `ON DELETE CASCADE` declaration is inert
and no explicit link cleanup is performed. -/
theorem c1_delete_leaves_dangling_link :
    get_conversation (delete_conversation c1store 1) 1 = none ∧
    get_conversation (delete_conversation c1store 1) 2 = none ∧
    (delete_conversation c1store 1).links = [(1, 2)] :=
  ⟨rfl, rfl, rfl⟩

/-! ## C2 -/

/-- Successful `add_conversation_link` dissected. -/
lemma add_link_ok {st : DBState} {a b : Nat} {st' : DBState}
    (h : add_conversation_link st a b = Except.ok st') :
    a ≠ b ∧ (a, b) ∉ st.links ∧
      st' = { st with links := st.links ++ [(a, b)] } := by
  unfold add_conversation_link at h
  split_ifs at h with h1 h2
  injection h with h'
  refine ⟨h1, ?_, h'.symm⟩
  intro hmem
  exact h2 (by simpa using hmem)

/-- C2 counterexample: on two fresh nodes, `add_link(1, 2)` succeeds and the
reverse-orientation `add_link(2, 1)` also succeeds (storing a second row)
instead of failing: the UNIQUE constraint only covers the ordered pair and
no code checks the reverse orientation. -/
theorem c2_counterexample :
    add_conversation_link c2base 1 2 = Except.ok c2mid ∧
    add_conversation_link c2mid 2 1 =
      Except.ok { c2mid with links := [(1, 2), (2, 1)] } :=
  ⟨rfl, rfl⟩

/-- C2 amended: after `add_link(a, b)` succeeds, repeating `add_link(a, b)`
fails with the duplicate-link error and the stored links are exactly the old
ones plus `(a, b)`; but `add_link(b, a)` succeeds (appending the reverse
row) whenever the reverse row was not already present. -/
theorem c2_amended (st : DBState) (a b : Nat) (st' : DBState)
    (h : add_conversation_link st a b = Except.ok st') :
    st'.links = st.links ++ [(a, b)] ∧
    add_conversation_link st' a b = Except.error LinkError.alreadyExists ∧
    ((b, a) ∉ st.links →
      add_conversation_link st' b a =
        Except.ok { st' with links := st'.links ++ [(b, a)] }) := by
  obtain ⟨hne, hnotmem, rfl⟩ := add_link_ok h
  refine ⟨rfl, ?_, ?_⟩
  · have hc : (st.links ++ [(a, b)]).contains (a, b) = true := by simp
    simp [add_conversation_link, hne, hc]
  · intro hrev
    have hne' : b ≠ a := Ne.symm hne
    simp [add_conversation_link, hne', hrev, hne]

/-- Witness for C2's amended statement at a concrete store. -/
theorem c2_amended_witness :
    c2mid.links = c2base.links ++ [(1, 2)] ∧
    add_conversation_link c2mid 1 2 = Except.error LinkError.alreadyExists ∧
    ((2, 1) ∉ c2base.links →
      add_conversation_link c2mid 2 1 =
        Except.ok { c2mid with links := c2mid.links ++ [(2, 1)] }) :=
  c2_amended c2base 1 2 c2mid rfl

/-! ## C9 -/

/-- C9: after a successful `add_link(a, b)`, the link-id query sees `b` from
`a` and `a` from `b` (whatever the stored orientation), and
`get_linked_conversations` never reports a node as linked to itself. -/
theorem c9_link_symmetry (st : DBState) (a b : Nat) (st' : DBState)
    (h : add_conversation_link st a b = Except.ok st') :
    b ∈ get_conversation_link_ids st' a ∧
    a ∈ get_conversation_link_ids st' b ∧
    ∀ (i : Nat) (c : Conversation), c ∈ get_linked_conversations st' i →
      c.id ≠ i := by
  obtain ⟨hne, -, rfl⟩ := add_link_ok h
  refine ⟨?_, ?_, ?_⟩
  · unfold get_conversation_link_ids
    refine List.mem_map.mpr ⟨(a, b), List.mem_filter.mpr ⟨?_, ?_⟩, ?_⟩
    · simp
    · simp
    · simp
  · unfold get_conversation_link_ids
    refine List.mem_map.mpr ⟨(a, b), List.mem_filter.mpr ⟨?_, ?_⟩, ?_⟩
    · simp
    · simp
    · simp [hne]
  · intro i c hc
    unfold get_linked_conversations at hc
    obtain ⟨l, -, hmem⟩ := List.mem_flatMap.mp hc
    have hpred := List.of_mem_filter hmem
    simp only [Bool.and_eq_true, Bool.not_eq_true', beq_eq_false_iff_ne,
      ne_eq] at hpred
    exact hpred.2

/-- Witness for C9 at a concrete store. -/
theorem c9_witness :
    2 ∈ get_conversation_link_ids c2mid 1 ∧
    1 ∈ get_conversation_link_ids c2mid 2 ∧
    ∀ (i : Nat) (c : Conversation), c ∈ get_linked_conversations c2mid i →
      c.id ≠ i :=
  c9_link_symmetry c2base 1 2 c2mid rfl

/-! ## Soundness and completeness of the descendant CTE -/

lemma children_of_any_mem {st : DBState} {frontier : List Nat}
    {c : Conversation} :
    c ∈ children_of_any st frontier ↔
      c ∈ st.conversations ∧ ∃ p ∈ frontier, c.pid = some p := by
  unfold children_of_any
  rw [List.mem_filter]
  constructor
  · rintro ⟨hm, hp⟩
    refine ⟨hm, ?_⟩
    cases hpid : c.pid with
    | none => simp [hpid] at hp
    | some p =>
      rw [hpid] at hp
      exact ⟨p, by simpa using hp, rfl⟩
  · rintro ⟨hm, p, hpf, hpid⟩
    exact ⟨hm, by simp [hpid, hpf]⟩

lemma descendantsAux_sound {st : DBState} (hw : WF st) :
    ∀ (fuel : Nat) (frontier : List Nat) (c : Conversation),
      c ∈ descendantsAux st fuel frontier →
      c ∈ st.conversations ∧
        ∃ f ∈ frontier, Relation.TransGen (upStep st) c.id f := by
  intro fuel
  induction fuel with
  | zero => intro frontier c hc; simp [descendantsAux] at hc
  | succ n ih =>
    intro frontier c hc
    simp only [descendantsAux] at hc
    rcases List.mem_append.mp hc with hnext | hrec
    · obtain ⟨hm, p, hpf, hpid⟩ := children_of_any_mem.mp hnext
      have hstep : upStep st c.id p := by
        unfold upStep parentOf
        rw [get_conversation_of_mem hw hm]
        simpa using hpid
      exact ⟨hm, p, hpf, Relation.TransGen.single hstep⟩
    · obtain ⟨hm, f', hf', hanc⟩ := ih _ c hrec
      obtain ⟨d, hd, hdid⟩ := List.mem_map.mp hf'
      obtain ⟨hdm, p, hpf, hdpid⟩ := children_of_any_mem.mp hd
      have hstep : upStep st f' p := by
        unfold upStep parentOf
        rw [← hdid, get_conversation_of_mem hw hdm]
        simpa using hdpid
      exact ⟨hm, p, hpf, hanc.tail hstep⟩

lemma descendantsAux_complete {st : DBState} (hA : Acyclic st) {a f : Nat}
    (h : Relation.TransGen (upStep st) a f) :
    ∀ (fuel : Nat) (frontier : List Nat), f ∈ frontier →
      st.conversations.length + 1 ≤ fuel + (upSet st f).ncard →
      a ∈ (descendantsAux st fuel frontier).map (·.id) := by
  induction h with
  | @single b hs =>
    intro fuel frontier hf hfuel
    obtain ⟨c, hm, hcid, hpid⟩ := upStep_pid hs
    have hb := upSet_ncard_le st b
    obtain ⟨n, rfl⟩ : ∃ n, fuel = n + 1 := ⟨fuel - 1, by omega⟩
    simp only [descendantsAux]
    rw [List.map_append]
    refine List.mem_append.mpr (Or.inl ?_)
    exact List.mem_map.mpr ⟨c, children_of_any_mem.mpr ⟨hm, _, hf, hpid⟩, hcid⟩
  | @tail b f' hab hbf ih =>
    intro fuel frontier hf hfuel
    have hlt := upSet_ncard_lt hA hbf
    have hb := upSet_ncard_le st f'
    obtain ⟨n, rfl⟩ : ∃ n, fuel = n + 1 := ⟨fuel - 1, by omega⟩
    simp only [descendantsAux]
    obtain ⟨c, hm, hcid, hpid⟩ := upStep_pid hbf
    have hbnext : _ ∈ (children_of_any st frontier).map (·.id) :=
      List.mem_map.mpr ⟨c, children_of_any_mem.mpr ⟨hm, _, hf, hpid⟩, hcid⟩
    have hrec := ih n ((children_of_any st frontier).map (·.id)) hbnext
      (by omega)
    rw [List.map_append]
    exact List.mem_append.mpr (Or.inr hrec)

lemma get_descendant_sound {st : DBState} (hw : WF st) {x : Nat}
    {c : Conversation} (hc : c ∈ get_descendant_conversations st x) :
    c ∈ st.conversations ∧ Relation.TransGen (upStep st) c.id x := by
  obtain ⟨hm, f, hf, hanc⟩ :=
    descendantsAux_sound hw (st.conversations.length + 1) [x] c hc
  rw [List.mem_singleton] at hf
  exact ⟨hm, hf ▸ hanc⟩

lemma get_descendant_complete {st : DBState} (hA : Acyclic st) {a x : Nat}
    (hanc : Relation.TransGen (upStep st) a x) :
    a ∈ (get_descendant_conversations st x).map (·.id) :=
  descendantsAux_complete hA hanc (st.conversations.length + 1) [x]
    (List.mem_singleton.mpr rfl) (by omega)

/-! ## C4 -/

/-- C4: on a well-formed acyclic store the cycle check of the CLI returns
true exactly when the node is its own proposed parent or the proposed parent
is one of its transitive descendants; and a reparent to `None` is never
rejected by the cycle check. -/
theorem c4_would_cycle_iff (st : DBState) (hw : WF st) (hA : Acyclic st)
    (node_id cand : Nat) :
    (would_create_circular_reference st node_id cand = true ↔
      node_id = cand ∨ Anc st cand node_id) ∧
    (∀ (cid i : Nat),
      editParentCheck st cid none ≠ Except.error (EditError.circular i)) := by
  constructor
  · unfold would_create_circular_reference
    rw [Bool.or_eq_true, beq_iff_eq, List.any_eq_true]
    constructor
    · rintro (rfl | ⟨d, hd, hdid⟩)
      · exact Or.inl rfl
      · rw [beq_iff_eq] at hdid
        exact Or.inr (hdid ▸ (get_descendant_sound hw hd).2)
    · rintro (rfl | hanc)
      · exact Or.inl rfl
      · refine Or.inr ?_
        obtain ⟨d, hd, hdid⟩ := List.mem_map.mp (get_descendant_complete hA hanc)
        exact ⟨d, hd, by simp [hdid]⟩
  · intro cid i
    cases hg : get_conversation st cid <;> simp [editParentCheck, hg]

/-- A three-node chain 1 ← 2 ← 3 with no links. -/
def c4store : DBState :=
  { conversations :=
      [mkConv 1 none 1 "a", mkConv 2 (some 1) 2 "b", mkConv 3 (some 2) 3 "c"],
    links := [], seq := 3 }

instance (st : DBState) : Decidable (WF st) :=
  inferInstanceAs (Decidable st.ids.Nodup)

lemma wf_c4store : WF c4store := by decide

lemma acyclic_c4store : Acyclic c4store := by
  apply acyclic_of_pid_lt
  intro c hc p hp
  simp only [c4store, List.mem_cons, List.not_mem_nil, or_false] at hc
  rcases hc with rfl | rfl | rfl <;> simp [mkConv] at hp ⊢ <;> omega

/-- Witness for C4 at a concrete store. -/
theorem c4_witness :
    WF c4store ∧ Acyclic c4store ∧
    ((would_create_circular_reference c4store 1 3 = true ↔
        1 = 3 ∨ Anc c4store 3 1) ∧
      (∀ (cid i : Nat),
        editParentCheck c4store cid none ≠
          Except.error (EditError.circular i))) :=
  ⟨wf_c4store, acyclic_c4store,
    c4_would_cycle_iff c4store wf_c4store acyclic_c4store 1 3⟩

/-! ## Effect of `update_conversation_parent` on lookups -/

lemma get_conversation_update_parent (st : DBState) (x : Nat) (np : Option Nat)
    (y : Nat) :
    get_conversation (update_conversation_parent st x np) y =
      (st.conversations.find? (fun c => c.id == y)).map
        (fun c => if c.id == x then { c with pid := np } else c) := by
  unfold get_conversation update_conversation_parent
  rw [List.find?_map (fun c => if c.id == x then { c with pid := np } else c)
    st.conversations]
  have hpred :
      ((fun c : Conversation => c.id == y) ∘
        (fun c => if c.id == x then { c with pid := np } else c)) =
      (fun c : Conversation => c.id == y) := by
    funext c
    by_cases hc : c.id = x <;> simp [hc]
  rw [hpred]

lemma parentOf_update_self (st : DBState) (x : Nat) (np : Option Nat) :
    parentOf (update_conversation_parent st x np) x =
      if (get_conversation st x).isSome then np else none := by
  unfold parentOf
  rw [get_conversation_update_parent]
  cases hg : st.conversations.find? (fun c => c.id == x) with
  | none => simp [get_conversation, hg]
  | some c =>
    have hid : c.id = x := by simpa using List.find?_some hg
    simp [get_conversation, hg, hid]

lemma parentOf_update_other {st : DBState} {x y : Nat} (np : Option Nat)
    (hxy : y ≠ x) :
    parentOf (update_conversation_parent st x np) y = parentOf st y := by
  unfold parentOf
  rw [get_conversation_update_parent]
  cases hg : st.conversations.find? (fun c => c.id == y) with
  | none => simp [get_conversation, hg]
  | some c =>
    have hid : c.id = y := by simpa using List.find?_some hg
    have hne : ¬ c.id = x := by simp [hid, hxy]
    simp [get_conversation, hg, hne]

lemma ids_update_parent (st : DBState) (x : Nat) (np : Option Nat) :
    (update_conversation_parent st x np).ids = st.ids := by
  unfold DBState.ids update_conversation_parent
  simp only [List.map_map]
  congr 1
  funext c
  by_cases hc : c.id = x <;> simp [hc]

/-! ## Effect of `add_conversation` on parent steps -/

lemma ids_add (st : DBState) (s m up : String) (r : Option String)
    (pid : Option Nat) (pt : Nat) (rt : Option Nat) :
    ((add_conversation st s m up r pid pt rt).1).ids = st.ids ++ [st.seq + 1] := by
  simp [DBState.ids, add_conversation]

lemma upStep_add {st : DBState} (hb : SeqBound st) {s m up : String}
    {r : Option String} {pid : Option Nat} {pt : Nat} {rt : Option Nat}
    {a c : Nat}
    (h : upStep (add_conversation st s m up r pid pt rt).1 a c) :
    (a ≠ st.seq + 1 ∧ upStep st a c) ∨ (a = st.seq + 1 ∧ pid = some c) := by
  unfold upStep parentOf get_conversation at h
  unfold upStep parentOf get_conversation
  simp only [add_conversation] at h
  rw [List.find?_append] at h
  by_cases hax : a = st.seq + 1
  · subst hax
    have hnone : st.conversations.find? (fun x => x.id == st.seq + 1) = none := by
      apply List.find?_eq_none.mpr
      intro x hx
      have := hb x hx
      simp only [beq_iff_eq]
      omega
    rw [hnone] at h
    simp at h
    exact Or.inr ⟨rfl, h⟩
  · left
    refine ⟨hax, ?_⟩
    cases hfind : st.conversations.find? (fun x => x.id == a) with
    | none =>
      rw [hfind] at h
      simp only [Option.none_or] at h
      have : (st.seq + 1 == a) = false := by
        simp only [beq_eq_false_iff_ne, ne_eq]
        omega
      simp [List.find?, this] at h
    | some row =>
      rw [hfind] at h
      simpa using h

/-! ## Acyclicity preservation -/

/-- Any ancestor path of the reparented store either avoids the changed edge
(and is an old path) or decomposes through the new edge `x → p`. -/
lemma transGen_update_some {st : DBState} {x p : Nat}
    (hx : (get_conversation st x).isSome) {a b : Nat}
    (h : Relation.TransGen
      (upStep (update_conversation_parent st x (some p))) a b) :
    Relation.TransGen (upStep st) a b ∨
      (Relation.ReflTransGen (upStep st) a x ∧
        Relation.ReflTransGen (upStep st) p b) := by
  induction h with
  | @single c hs =>
    by_cases hax : a = x
    · have heq : parentOf (update_conversation_parent st x (some p)) x =
          some p := by
        rw [parentOf_update_self]; simp [hx]
      unfold upStep at hs
      rw [hax, heq] at hs
      injection hs with hc
      refine Or.inr ⟨?_, ?_⟩
      · rw [hax]
      · rw [hc]
    · have hs' : upStep st a c := by
        unfold upStep at hs ⊢
        rwa [parentOf_update_other (some p) hax] at hs
      exact Or.inl (Relation.TransGen.single hs')
  | @tail b c hab hbc ih =>
    by_cases hbx : b = x
    · have heq : parentOf (update_conversation_parent st x (some p)) x =
          some p := by
        rw [parentOf_update_self]; simp [hx]
      unfold upStep at hbc
      rw [hbx, heq] at hbc
      injection hbc with hc
      refine Or.inr ⟨?_, by rw [hc]⟩
      rcases ih with hl | ⟨h1, _⟩
      · exact hbx ▸ hl.to_reflTransGen
      · exact h1
    · have hbc' : upStep st b c := by
        unfold upStep at hbc ⊢
        rwa [parentOf_update_other (some p) hbx] at hbc
      rcases ih with hl | ⟨h1, h2⟩
      · exact Or.inl (hl.tail hbc')
      · exact Or.inr ⟨h1, h2.tail hbc'⟩

/-- An accepted reparent (target exists, proposed parent exists, proposed
parent neither the node itself nor one of its descendants) keeps the parent
relation acyclic. -/
lemma acyclic_reparent {st : DBState} (hA : Acyclic st) {x p : Nat}
    (hx : (get_conversation st x).isSome) (hxp : x ≠ p)
    (hnd : ¬ Relation.TransGen (upStep st) p x) :
    Acyclic (update_conversation_parent st x (some p)) := by
  intro z hz
  rcases transGen_update_some hx hz with hl | ⟨h1, h2⟩
  · exact hA z hl
  · have hpx : Relation.ReflTransGen (upStep st) p x := h2.trans h1
    rcases (Relation.reflTransGen_iff_eq_or_transGen).mp hpx with heq | htg
    · exact hxp heq
    · exact hnd htg

/-- Reparenting to `None` only removes parent edges, so acyclicity is kept. -/
lemma acyclic_update_none {st : DBState} {x : Nat} (hA : Acyclic st) :
    Acyclic (update_conversation_parent st x none) := by
  intro z hz
  refine hA z (Relation.TransGen.mono ?_ hz)
  intro a b hab
  by_cases hax : a = x
  · subst hax
    unfold upStep at hab
    rw [parentOf_update_self] at hab
    split at hab <;> cases hab
  · unfold upStep at hab ⊢
    rwa [parentOf_update_other none hax] at hab

/-- An accepted create keeps the parent relation acyclic: the fresh id has no
incoming edges, and its own parent edge points into the old store. -/
lemma acyclic_add {st : DBState} (hb : SeqBound st) (hcl : PidsClosed st)
    (hA : Acyclic st) {s m up : String} {r : Option String} {pt : Nat}
    {rt : Option Nat} {pid : Option Nat}
    (hpid : ∀ pp, pid = some pp → pp ∈ st.ids) :
    Acyclic (add_conversation st s m up r pid pt rt).1 := by
  have hids_le : ∀ q ∈ st.ids, q ≤ st.seq := by
    intro q hq
    obtain ⟨c, hc, rfl⟩ := List.mem_map.mp hq
    exact hb c hc
  have htarget : ∀ a c, upStep st a c → c ≤ st.seq := by
    intro a c hstep
    obtain ⟨row, hm, _, hpidrow⟩ := upStep_pid hstep
    exact hids_le c (hcl row hm c hpidrow)
  have hold : ∀ a b,
      Relation.TransGen (upStep (add_conversation st s m up r pid pt rt).1) a b →
      a ≠ st.seq + 1 → Relation.TransGen (upStep st) a b ∧ b ≠ st.seq + 1 := by
    intro a b h hne
    induction h with
    | @single c hs =>
      rcases upStep_add hb hs with ⟨_, hstep⟩ | ⟨ha, _⟩
      · have := htarget _ _ hstep
        exact ⟨.single hstep, by omega⟩
      · exact absurd ha hne
    | @tail b c hab hbc ih =>
      obtain ⟨htg, hbne⟩ := ih
      rcases upStep_add hb hbc with ⟨_, hstep⟩ | ⟨hb', _⟩
      · have := htarget _ _ hstep
        exact ⟨htg.tail hstep, by omega⟩
      · exact absurd hb' hbne
  intro z hz
  by_cases hzn : z = st.seq + 1
  · subst hzn
    obtain ⟨c, hstep, hrest⟩ := Relation.TransGen.head'_iff.mp hz
    rcases upStep_add hb hstep with ⟨hne, _⟩ | ⟨_, hpc⟩
    · exact hne rfl
    · have hcle := hids_le c (hpid c hpc)
      have hcne : c ≠ st.seq + 1 := by omega
      rcases (Relation.reflTransGen_iff_eq_or_transGen).mp hrest with heq | htg
      · exact hcne heq.symm
      · exact (hold c _ htg hcne).2 rfl
  · exact hA z (hold z z hz hzn).1

/-! ## Invariant preservation and C3 -/

lemma inv_add {st : DBState} (hInv : Inv st) {s m up : String}
    {r : Option String} {pt : Nat} {rt : Option Nat} {pid : Option Nat}
    (hpid : ∀ pp, pid = some pp → pp ∈ st.ids) :
    Inv (add_conversation st s m up r pid pt rt).1 := by
  obtain ⟨hw, hb, hcl, hA⟩ := hInv
  refine ⟨?_, ?_, ?_, acyclic_add hb hcl hA hpid⟩
  · unfold WF
    rw [ids_add]
    rw [List.nodup_append]
    refine ⟨hw, List.nodup_singleton _, ?_⟩
    intro q hq hq1
    rw [List.mem_singleton] at hq1
    obtain ⟨c, hc, rfl⟩ := List.mem_map.mp hq
    have := hb c hc
    omega
  · intro c hc
    simp only [add_conversation, List.mem_append, List.mem_singleton] at hc
    rcases hc with hc | rfl
    · have := hb c hc
      simp only [add_conversation]
      omega
    · simp [add_conversation]
  · intro c hc p hp
    rw [ids_add]
    simp only [add_conversation, List.mem_append, List.mem_singleton] at hc
    rcases hc with hc | rfl
    · exact List.mem_append.mpr (Or.inl (hcl c hc p hp))
    · exact List.mem_append.mpr (Or.inl (hpid p hp))

lemma mem_update_parent {st : DBState} {x : Nat} {np : Option Nat}
    {c' : Conversation}
    (h : c' ∈ (update_conversation_parent st x np).conversations) :
    ∃ c ∈ st.conversations,
      c' = if c.id == x then { c with pid := np } else c := by
  simp only [update_conversation_parent, List.mem_map] at h
  obtain ⟨c, hc, rfl⟩ := h
  exact ⟨c, hc, rfl⟩

lemma inv_update_parent {st : DBState} (hInv : Inv st) {x : Nat}
    {np : Option Nat} (hA' : Acyclic (update_conversation_parent st x np))
    (hnp : ∀ p, np = some p → p ∈ st.ids) :
    Inv (update_conversation_parent st x np) := by
  obtain ⟨hw, hb, hcl, -⟩ := hInv
  refine ⟨?_, ?_, ?_, hA'⟩
  · unfold WF
    rw [ids_update_parent]
    exact hw
  · intro c' hc'
    obtain ⟨c, hc, rfl⟩ := mem_update_parent hc'
    have := hb c hc
    by_cases hcx : c.id == x <;> simp [hcx, update_conversation_parent]
    · exact this
    · exact this
  · intro c' hc' p hp
    rw [ids_update_parent]
    obtain ⟨c, hc, rfl⟩ := mem_update_parent hc'
    by_cases hcx : c.id == x
    · rw [if_pos hcx] at hp
      simp only at hp
      exact hnp p hp
    · rw [if_neg hcx] at hp
      exact hcl c hc p hp

lemma inv_applyOp {st : DBState} {op : Op} {st' : DBState}
    (hInv : Inv st) (h : applyOp st op = some st') : Inv st' := by
  cases op with
  | create s m p r pid pt rt =>
    cases pid with
    | none =>
      simp only [applyOp] at h
      injection h with h'
      exact h' ▸ inv_add hInv (fun pp hpp => by cases hpp)
    | some pp =>
      simp only [applyOp] at h
      split_ifs at h with hpp
      injection h with h'
      refine h' ▸ inv_add hInv (fun q hq => ?_)
      injection hq with hq'
      obtain ⟨c, hc⟩ := Option.isSome_iff_exists.mp hpp
      obtain ⟨hm, hid⟩ := get_conversation_mem hc
      exact hq' ▸ hid ▸ List.mem_map.mpr ⟨c, hm, rfl⟩
  | reparent cid np =>
    simp only [applyOp] at h
    cases hg : get_conversation st cid with
    | none => simp [editParentCheck, hg, Except.toOption] at h
    | some c0 =>
      cases np with
      | none =>
        simp only [editParentCheck, hg, Except.toOption] at h
        injection h with h'
        exact h' ▸ inv_update_parent hInv
          (acyclic_update_none hInv.2.2.2) (fun p hp => by cases hp)
      | some p =>
        cases hgp : get_conversation st p with
        | none => simp [editParentCheck, hg, hgp, Except.toOption] at h
        | some cp =>
          cases hcyc : would_create_circular_reference st cid p with
          | true => simp [editParentCheck, hg, hgp, hcyc, Except.toOption] at h
          | false =>
            simp only [editParentCheck, hg, hgp, hcyc, Bool.false_eq_true,
              if_false, Except.toOption] at h
            injection h with h'
            obtain ⟨hw, hb, hcl, hA⟩ := hInv
            have hiff := (c4_would_cycle_iff st hw hA cid p).1
            have hnot : ¬ (cid = p ∨ Anc st p cid) := by
              intro hcon
              have := hiff.mpr hcon
              rw [hcyc] at this
              cases this
            push_neg at hnot
            have hA' : Acyclic (update_conversation_parent st cid (some p)) :=
              acyclic_reparent hA (by simp [hg]) hnot.1 hnot.2
            refine h' ▸ inv_update_parent ⟨hw, hb, hcl, hA⟩ hA' (fun q hq => ?_)
            injection hq with hq'
            obtain ⟨hm, hid⟩ := get_conversation_mem hgp
            exact hq' ▸ hid ▸ List.mem_map.mpr ⟨cp, hm, rfl⟩

lemma inv_applyOps {st : DBState} {ops : List Op} {st' : DBState}
    (hInv : Inv st) (h : applyOps st ops = some st') : Inv st' := by
  induction ops generalizing st with
  | nil =>
    simp only [applyOps, List.foldlM_nil] at h
    injection h with h'
    exact h' ▸ hInv
  | cons o os ih =>
    rw [applyOps, List.foldlM_cons] at h
    cases happ : applyOp st o with
    | none => rw [happ] at h; cases h
    | some st1 =>
      rw [happ] at h
      exact ih (inv_applyOp hInv happ) h

/-- C3: starting from any store satisfying the invariant, every sequence of
creates and reparents that are each individually accepted (not rejected by
the existence checks or the cycle check) leaves the parent relation a
forest: acyclic and single-valued. -/
theorem c3_forest_invariant (st : DBState) (ops : List Op) (st' : DBState)
    (hInv : Inv st) (h : applyOps st ops = some st') : Forest st' := by
  obtain ⟨hw, -, -, hA⟩ := inv_applyOps hInv h
  exact ⟨hA, fun c1 h1 c2 h2 he => List.inj_on_of_nodup_map hw h1 h2 he⟩

/-- The empty store. -/
def emptyDB : DBState := { conversations := [], links := [], seq := 0 }

lemma inv_emptyDB : Inv emptyDB := by
  refine ⟨by decide, ?_, ?_, ?_⟩
  · intro c hc; exact absurd hc (List.not_mem_nil c)
  · intro c hc; exact absurd hc (List.not_mem_nil c)
  · exact acyclic_of_pid_lt (fun c hc => absurd hc (List.not_mem_nil c))

/-- Create a root, create a child of it, detach the child, then reparent the
old root under the now-detached node. -/
def c3ops : List Op :=
  [Op.create "a" "m" "q" none none 1 none,
   Op.create "b" "m" "q" none (some 1) 2 none,
   Op.reparent 2 none,
   Op.reparent 1 (some 2)]

/-- The store reached by `c3ops` from the empty store. -/
def c3final : DBState :=
  { conversations := [mkConv 1 (some 2) 1 "a", mkConv 2 none 2 "b"],
    links := [], seq := 2 }

/-- Witness for C3: the concrete accepted sequence `c3ops` ends in a forest. -/
theorem c3_witness : Inv emptyDB ∧ Forest c3final :=
  ⟨inv_emptyDB, c3_forest_invariant emptyDB c3ops c3final inv_emptyDB (by rfl)⟩

/-! ## Termination of the chain, path and tree traversals -/

lemma chainAux_isSome {st : DBState} (hA : Acyclic st) :
    ∀ (fuel : Nat) (s : ChainState),
      (s.current = none ∨
        ∃ x, s.current = some x ∧ (upSet st x).ncard < fuel) →
      (chainAux st fuel s).isSome := by
  intro fuel
  induction fuel with
  | zero =>
    intro s hs
    rcases hs with h | ⟨x, hx, hlt⟩
    · simp [chainAux, h]
    · omega
  | succ n ih =>
    intro s hs
    rcases hs with h | ⟨x, hx, hlt⟩
    · simp [chainAux, h]
    · rw [chainAux, if_neg (by simp [hx])]
      apply ih
      cases hg : get_conversation st x with
      | none => exact Or.inl (by simp [chainStep, hx, hg])
      | some conv =>
        cases hpid : conv.pid with
        | none => exact Or.inl (by simp [chainStep, hx, hg, hpid])
        | some p =>
          refine Or.inr ⟨p, by simp [chainStep, hx, hg, hpid], ?_⟩
          have hstep : upStep st x p := by
            unfold upStep parentOf
            rw [hg]
            simpa using hpid
          have := upSet_ncard_lt hA hstep
          omega

lemma pathAux_isSome {st : DBState} (hA : Acyclic st) :
    ∀ (fuel : Nat) (s : PathState),
      (s.current = none ∨
        ∃ x, s.current = some x ∧ (upSet st x).ncard < fuel) →
      (pathAux st fuel s).isSome := by
  intro fuel
  induction fuel with
  | zero =>
    intro s hs
    rcases hs with h | ⟨x, hx, hlt⟩
    · simp [pathAux, h]
    · omega
  | succ n ih =>
    intro s hs
    rcases hs with h | ⟨x, hx, hlt⟩
    · simp [pathAux, h]
    · rw [pathAux, if_neg (by simp [hx])]
      apply ih
      cases hg : get_conversation st x with
      | none => exact Or.inl (by simp [pathStep, hx, hg])
      | some conv =>
        cases hpid : conv.pid with
        | none => exact Or.inl (by simp [pathStep, hx, hg, hpid])
        | some p =>
          refine Or.inr ⟨p, by simp [pathStep, hx, hg, hpid], ?_⟩
          have hstep : upStep st x p := by
            unfold upStep parentOf
            rw [hg]
            simpa using hpid
          have := upSet_ncard_lt hA hstep
          omega

lemma mem_get_child {st : DBState} {rid : Nat} {c : Conversation}
    (hc : c ∈ get_child_conversations st rid) :
    c ∈ st.conversations ∧ c.pid = some rid := by
  unfold get_child_conversations at hc
  have hmem := (List.Perm.mem_iff (List.perm_insertionSort tsLE _)).mp hc
  have := List.mem_filter.mp hmem
  exact ⟨this.1, by simpa using this.2⟩

lemma upStep_of_child {st : DBState} (hw : WF st) {rid : Nat}
    {c : Conversation} (hc : c ∈ get_child_conversations st rid) :
    upStep st c.id rid := by
  obtain ⟨hm, hpid⟩ := mem_get_child hc
  unfold upStep parentOf
  rw [get_conversation_of_mem hw hm]
  simpa using hpid

lemma treeChildren_ne_none {st : DBState} {n : Nat} :
    ∀ l : List Nat, (∀ cid ∈ l, treeAux st n cid ≠ none) →
      treeChildren st n l ≠ none := by
  intro l
  induction l with
  | nil => intro _; simp [treeChildren]
  | cons cid cids ih =>
    intro hall
    have h1 := hall cid (List.mem_cons_self ..)
    have h2 := ih (fun d hd => hall d (List.mem_cons_of_mem _ hd))
    rw [treeChildren]
    cases ht : treeAux st n cid with
    | none => exact absurd ht h1
    | some o =>
      cases o with
      | none => exact h2
      | some t =>
        cases hacc : treeChildren st n cids with
        | none => exact absurd hacc h2
        | some ts => simp

lemma treeAux_ne_none {st : DBState} (hw : WF st) (hA : Acyclic st) :
    ∀ (fuel rid : Nat),
      st.conversations.length < fuel + (upSet st rid).ncard →
      treeAux st fuel rid ≠ none := by
  intro fuel
  induction fuel with
  | zero =>
    intro rid hlt
    have := upSet_ncard_le st rid
    omega
  | succ n ih =>
    intro rid hlt
    rw [treeAux]
    cases hg : get_conversation st rid with
    | none => simp
    | some conv =>
      have hch : treeChildren st n
          ((get_child_conversations st rid).map (·.id)) ≠ none := by
        apply treeChildren_ne_none
        intro cid hcid
        obtain ⟨c, hc, rfl⟩ := List.mem_map.mp hcid
        have hstep := upStep_of_child hw hc
        have := upSet_ncard_lt hA hstep
        exact ih c.id (by omega)
      cases hcc : treeChildren st n
          ((get_child_conversations st rid).map (·.id)) with
      | none => exact absurd hcc hch
      | some ts => simp

/-! ## Soundness of tree materialization, C7 and C6 -/

/-- A materialized tree agrees with the store: at every node, the children's
root ids are exactly `get_child_conversations` of that node's id, in order,
recursively. -/
inductive TreeMatchesStore (st : DBState) : ConvTree → Prop
  | mk (conv : Conversation) (children : List ConvTree)
      (hids : children.map ConvTree.rootId =
        (get_child_conversations st conv.id).map (·.id))
      (hrec : ∀ t ∈ children, TreeMatchesStore st t) :
      TreeMatchesStore st (ConvTree.mk conv children)

lemma treeAux_eq_some_none {st : DBState} {fuel rid : Nat}
    (h : treeAux st fuel rid = some none) : get_conversation st rid = none := by
  cases fuel with
  | zero => rw [treeAux] at h; cases h
  | succ n =>
    rw [treeAux] at h
    cases hg : get_conversation st rid with
    | none => rfl
    | some conv =>
      rw [hg] at h
      cases hcc : treeChildren st n
          ((get_child_conversations st rid).map (·.id)) with
      | none => rw [hcc] at h; cases h
      | some ts => rw [hcc] at h; cases h

lemma treeChildren_sound {st : DBState} (hw : WF st) {n : Nat}
    (hsound : ∀ (rid : Nat) (t : ConvTree), treeAux st n rid = some (some t) →
      get_conversation st rid = some t.conv ∧ TreeMatchesStore st t) :
    ∀ (l : List Nat) (ts : List ConvTree),
      (∀ cid ∈ l, (get_conversation st cid).isSome) →
      treeChildren st n l = some ts →
      ts.map ConvTree.rootId = l ∧ ∀ t ∈ ts, TreeMatchesStore st t := by
  intro l
  induction l with
  | nil =>
    intro ts _ h
    rw [treeChildren] at h
    injection h with h'
    subst h'
    exact ⟨rfl, by intro t ht; cases ht⟩
  | cons cid cids ih =>
    intro ts hex h
    rw [treeChildren] at h
    cases ht : treeAux st n cid with
    | none => rw [ht] at h; cases h
    | some o =>
      rw [ht] at h
      cases o with
      | none =>
        have := treeAux_eq_some_none ht
        have hx := hex cid (List.mem_cons_self ..)
        rw [this] at hx
        cases hx
      | some t =>
        cases hacc : treeChildren st n cids with
        | none => rw [hacc] at h; cases h
        | some ts' =>
          rw [hacc] at h
          injection h with h'
          subst h'
          obtain ⟨hget, hmatch⟩ := hsound cid t ht
          obtain ⟨hids, hrec⟩ :=
            ih ts' (fun d hd => hex d (List.mem_cons_of_mem _ hd)) hacc
          have hroot : t.rootId = cid := by
            unfold ConvTree.rootId
            exact (get_conversation_mem hget).2
          refine ⟨?_, ?_⟩
          · simp [hroot, hids]
          · intro u hu
            rcases List.mem_cons.mp hu with rfl | hu'
            · exact hmatch
            · exact hrec u hu'

lemma treeAux_sound {st : DBState} (hw : WF st) :
    ∀ (fuel rid : Nat) (t : ConvTree),
      treeAux st fuel rid = some (some t) →
      get_conversation st rid = some t.conv ∧ TreeMatchesStore st t := by
  intro fuel
  induction fuel with
  | zero => intro rid t h; rw [treeAux] at h; cases h
  | succ n ih =>
    intro rid t h
    rw [treeAux] at h
    cases hg : get_conversation st rid with
    | none => rw [hg] at h; cases h
    | some conv =>
      rw [hg] at h
      cases hcc : treeChildren st n
          ((get_child_conversations st rid).map (·.id)) with
      | none => rw [hcc] at h; cases h
      | some ts =>
        rw [hcc] at h
        injection h with h'
        injection h' with h''
        subst h''
        have hex : ∀ cid ∈ (get_child_conversations st rid).map (·.id),
            (get_conversation st cid).isSome := by
          intro cid hcid
          obtain ⟨c, hc, rfl⟩ := List.mem_map.mp hcid
          rw [get_conversation_of_mem hw (mem_get_child hc).1]
          rfl
        obtain ⟨hids, hrec⟩ := treeChildren_sound hw ih _ ts hex hcc
        have hcid : conv.id = rid := (get_conversation_mem hg).2
        refine ⟨rfl, TreeMatchesStore.mk conv ts ?_ hrec⟩
        rw [hids, hcid]

/-- C7: on a well-formed acyclic store, an unresolvable root id materializes
to the absent result, and a resolvable root id materializes to a tree whose
children ids at every level are exactly the `get_child_conversations` ids of
that level's node, in the same order.  (The materialization is a pure read:
it takes the store as input and returns only a tree.) -/
theorem c7_tree_matches_store (st : DBState) (rid : Nat)
    (hw : WF st) (hA : Acyclic st) :
    (get_conversation st rid = none →
      get_conversation_tree st rid = some none) ∧
    (∀ conv, get_conversation st rid = some conv →
      ∃ t, get_conversation_tree st rid = some (some t) ∧
        t.conv = conv ∧ TreeMatchesStore st t) := by
  constructor
  · intro h
    unfold get_conversation_tree
    rw [treeAux, h]
  · intro conv h
    have hne := treeAux_ne_none hw hA (st.conversations.length + 1) rid
      (by omega)
    unfold get_conversation_tree
    cases ht : treeAux st (st.conversations.length + 1) rid with
    | none => exact absurd ht hne
    | some o =>
      cases o with
      | none =>
        have := treeAux_eq_some_none ht
        rw [this] at h
        cases h
      | some t =>
        obtain ⟨hget, hmatch⟩ := treeAux_sound hw _ _ t ht
        rw [h] at hget
        injection hget with hget'
        exact ⟨t, rfl, hget'.symm, hmatch⟩

/-- Witness for C7 at a concrete store. -/
theorem c7_witness :
    WF c4store ∧ Acyclic c4store ∧
    ((get_conversation c4store 1 = none →
        get_conversation_tree c4store 1 = some none) ∧
      (∀ conv, get_conversation c4store 1 = some conv →
        ∃ t, get_conversation_tree c4store 1 = some (some t) ∧
          t.conv = conv ∧ TreeMatchesStore c4store t)) :=
  ⟨wf_c4store, acyclic_c4store,
    c7_tree_matches_store c4store 1 wf_c4store acyclic_c4store⟩

/-- The chain loop eventually stops (within some iteration bound). -/
def ChainTerminates (st : DBState) (cid : Nat) : Prop :=
  ∃ fuel, (chainAux st fuel { chain := [], current := some cid }).isSome

/-- The path loop eventually stops (within some iteration bound). -/
def PathTerminates (st : DBState) (cid : Nat) : Prop :=
  ∃ fuel, (pathAux st fuel { path := [], current := some cid }).isSome

/-- The tree recursion completes within some nesting depth. -/
def TreeTerminates (st : DBState) (rid : Nat) : Prop :=
  ∃ fuel, treeAux st fuel rid ≠ none

/-- C6 amended: on every well-formed acyclic store all three traversals
terminate (within one more step than the row count). -/
theorem c6_traversals_terminate_on_acyclic (st : DBState) (cid : Nat)
    (hw : WF st) (hA : Acyclic st) :
    (get_conversation_chain st cid).isSome ∧
    (get_conversation_path st cid).isSome ∧
    get_conversation_tree st cid ≠ none := by
  have hb := upSet_ncard_le st cid
  refine ⟨?_, ?_, ?_⟩
  · exact chainAux_isSome hA _ _ (Or.inr ⟨cid, rfl, by omega⟩)
  · exact pathAux_isSome hA _ _ (Or.inr ⟨cid, rfl, by omega⟩)
  · exact treeAux_ne_none hw hA _ _ (by omega)

/-- Witness for the amended C6 at a concrete store. -/
theorem c6_witness :
    WF c4store ∧ Acyclic c4store ∧
    ((get_conversation_chain c4store 2).isSome ∧
      (get_conversation_path c4store 2).isSome ∧
      get_conversation_tree c4store 2 ≠ none) :=
  ⟨wf_c4store, acyclic_c4store,
    c6_traversals_terminate_on_acyclic c4store 2 wf_c4store acyclic_c4store⟩

/-- A store whose single row is its own parent: a corrupted cyclic state. -/
def cyclicStore : DBState :=
  { conversations := [mkConv 1 (some 1) 1 "a"], links := [], seq := 1 }

lemma chainAux_cyclic :
    ∀ (fuel : Nat) (s : ChainState), s.current = some 1 →
      chainAux cyclicStore fuel s = none := by
  intro fuel
  induction fuel with
  | zero => intro s hs; simp [chainAux, hs]
  | succ n ih =>
    intro s hs
    rw [chainAux, if_neg (by simp [hs])]
    exact ih _ (by simp [chainStep, hs, get_conversation, cyclicStore, mkConv])

lemma pathAux_cyclic :
    ∀ (fuel : Nat) (s : PathState), s.current = some 1 →
      pathAux cyclicStore fuel s = none := by
  intro fuel
  induction fuel with
  | zero => intro s hs; simp [pathAux, hs]
  | succ n ih =>
    intro s hs
    rw [pathAux, if_neg (by simp [hs])]
    exact ih _ (by simp [pathStep, hs, get_conversation, cyclicStore, mkConv])

lemma treeAux_cyclic : ∀ fuel : Nat, treeAux cyclicStore fuel 1 = none := by
  intro fuel
  induction fuel with
  | zero => rw [treeAux]
  | succ n ih =>
    have hget : get_conversation cyclicStore 1 =
        some (mkConv 1 (some 1) 1 "a") := rfl
    have hch : (get_child_conversations cyclicStore 1).map (·.id) = [1] := rfl
    rw [treeAux, hget, hch, treeChildren, ih]

/-- C6 counterexample: on the cyclic store, the chain loop and the path loop
never exit (no iteration bound makes them finish) and the tree recursion
exceeds every depth bound: none of the three operations terminates. -/
theorem c6_counterexample :
    ¬ ChainTerminates cyclicStore 1 ∧ ¬ PathTerminates cyclicStore 1 ∧
    ¬ TreeTerminates cyclicStore 1 := by
  refine ⟨?_, ?_, ?_⟩
  · rintro ⟨fuel, hf⟩
    rw [chainAux_cyclic fuel _ rfl] at hf
    cases hf
  · rintro ⟨fuel, hf⟩
    rw [pathAux_cyclic fuel _ rfl] at hf
    cases hf
  · rintro ⟨fuel, hf⟩
    exact hf (treeAux_cyclic fuel)

/-! ## C5: bulk relink -/

/-- Two nodes 1 and 2, with a pre-existing reverse-orientation link
`(2, 1)`; node 99 does not exist. -/
def c5store : DBState :=
  { conversations := [mkConv 1 none 1 "a", mkConv 2 none 2 "b"],
    links := [(2, 1)], seq := 2 }

/-- The spec's description of bulk relink, written from its words for
comparison with the code: "remove all existing links of the node, then add
each of the new set", skipping a target that equals the node itself or fails
to resolve, and a failure on one target not aborting the rest. -/
def bulkRelinkSpec (st : DBState) (conv_id : Nat) (targets : List Nat) :
    DBState :=
  go (remove_all_conversation_links st conv_id) targets
where
  /-- Process the targets one by one against the current store. -/
  go : DBState → List Nat → DBState
    | s, [] => s
    | s, t :: ts =>
      if t = conv_id ∨ (get_conversation s t).isNone then go s ts
      else
        match add_conversation_link s conv_id t with
        | .ok s' => go s' ts
        | .error _ => go s ts

lemma relink_go_eq (conv_id : Nat) :
    ∀ (ts : List Nat) (s : DBState),
      editorRelinkCore.go conv_id s ts = bulkRelinkSpec.go conv_id s ts := by
  intro ts
  induction ts with
  | nil => intro s; rfl
  | cons t ts ih =>
    intro s
    rw [editorRelinkCore.go, bulkRelinkSpec.go]
    by_cases h1 : (get_conversation s t).isNone
    · rw [if_pos h1, if_pos (Or.inr h1)]
      exact ih s
    · by_cases h2 : t = conv_id
      · rw [if_neg (by simpa using h1), if_pos h2,
          if_pos (Or.inl h2)]
        exact ih s
      · rw [if_neg (by simpa using h1), if_neg h2,
          if_neg (by simp [h1, h2])]
        cases add_conversation_link s conv_id t with
        | ok s' => exact ih s'
        | error e => exact ih s

/-- C5 counterexample: with node 99 absent, `edit 1 -link 99,2` is rejected
wholesale during validation (no link to 2 is created, the pre-existing link
is kept), while the claimed remove-then-add-with-skips process would have
dropped the old link and linked node 2. -/
theorem c5_counterexample :
    editLinksCmd c5store 1 [99, 2] =
      Except.error (EditError.linkTargetNotFound 99) ∧
    editorRelinkCore c5store 1 [99, 2] =
      { c5store with links := [(1, 2)] } :=
  ⟨rfl, rfl⟩

/-- C5 amended: the external-editor relink path is exactly the spec's
"remove all links, then add each target, skipping self-targets and
unresolvable targets non-fatally"; the flag-based `-link` path instead
validates all targets up front and rejects the whole command (mutating
nothing) as soon as any target fails to resolve. -/
theorem c5_relink_partial_success (st : DBState) (conv_id : Nat)
    (targets : List Nat) :
    editorRelinkCore st conv_id targets = bulkRelinkSpec st conv_id targets ∧
    ((∃ t ∈ targets, (get_conversation st t).isNone) →
      ∀ r, editLinksCmd st conv_id targets ≠ Except.ok r) := by
  constructor
  · unfold editorRelinkCore bulkRelinkSpec
    exact relink_go_eq conv_id targets _
  · rintro ⟨t, ht, hnone⟩ r h
    unfold editLinksCmd at h
    cases hg : get_conversation st conv_id with
    | none => rw [hg] at h; cases h
    | some c0 =>
      rw [hg] at h
      have hsome : (targets.find?
          (fun t => (get_conversation st t).isNone)).isSome :=
        List.find?_isSome.mpr ⟨t, ht, hnone⟩
      cases hf : targets.find? (fun t => (get_conversation st t).isNone) with
      | none => rw [hf] at hsome; cases hsome
      | some t' => rw [hf] at h; cases h

/-- Witness for C5's amended statement at a concrete store. -/
theorem c5_witness :
    editorRelinkCore c5store 1 [99, 2] = bulkRelinkSpec c5store 1 [99, 2] ∧
    ((∃ t ∈ [99, 2], (get_conversation c5store t).isNone) →
      ∀ r, editLinksCmd c5store 1 [99, 2] ≠ Except.ok r) :=
  c5_relink_partial_success c5store 1 [99, 2]

/-! ## C8: search semantics -/

/-- Bool-level substring test: some suffix of `t` starts with `q`. -/
def infixOfB (q t : List Char) : Bool :=
  t.tails.any (fun s => q.isPrefixOf s)

lemma infixOfB_iff_infix (q t : List Char) : infixOfB q t = true ↔ q <:+: t := by
  unfold infixOfB
  rw [List.any_eq_true]
  constructor
  · rintro ⟨s, hs, hp⟩
    exact List.infix_iff_prefix_suffix.mpr
      ⟨s, List.isPrefixOf_iff_prefix.mp hp, (List.mem_tails s t).mp hs⟩
  · intro h
    obtain ⟨s, hp, hsuf⟩ := List.infix_iff_prefix_suffix.mp h
    exact ⟨s, (List.mem_tails s t).mpr hsuf,
      List.isPrefixOf_iff_prefix.mpr hp⟩

/-- The spec's glob matcher, written from its words for comparison with the
code: `*` matches any run of characters, every other character matches
itself literally. -/
def globMatch : List Char → List Char → Bool
  | [], t => t.isEmpty
  | g :: ps, t =>
    if g = '*' then t.tails.any (fun s => globMatch ps s)
    else
      (match t.head? with
       | some c => g == c
       | none => false) && globMatch ps t.tail

/-- The spec's description of one field match, written from its words for
comparison with the code: case-insensitive (ASCII); a term with `*` matches
by glob, a term without `*` matches as a substring anywhere in the field. -/
def specFieldMatch (term field : List Char) : Bool :=
  if term.contains '*' then
    globMatch (term.map asciiLower) (field.map asciiLower)
  else
    infixOfB (term.map asciiLower) (field.map asciiLower)

/-- The spec's description of a search hit on a node: subject, user_prompt,
or a present llm_response matches. -/
def specMatches (term : List Char) (c : Conversation) : Bool :=
  specFieldMatch term c.subject.data || specFieldMatch term c.user_prompt.data ||
    (match c.llm_response with
     | some r => specFieldMatch term r.data
     | none => false)

lemma char_toNat_inj {a b : Char} (h : a.toNat = b.toNat) : a = b := by
  apply Char.ext
  unfold Char.toNat at h
  exact UInt32.ext h

lemma asciiLower_toNat (c : Char) :
    (asciiLower c).toNat =
      if 65 ≤ c.toNat ∧ c.toNat ≤ 90 then c.toNat + 32 else c.toNat := by
  unfold asciiLower
  split_ifs with h
  · have hv : (c.toNat + 32).isValidChar := by
      left
      have := c.toNat
      omega
    unfold Char.ofNat
    rw [dif_pos hv]
    rfl
  · rfl

lemma asciiLower_eq_iff {d : Char} (hd1 : d.toNat < 97)
    (hd2 : ¬ (65 ≤ d.toNat ∧ d.toNat ≤ 90)) (c : Char) :
    asciiLower c = d ↔ c = d := by
  constructor
  · intro h
    have ht : (asciiLower c).toNat = d.toNat := by rw [h]
    rw [asciiLower_toNat] at ht
    split_ifs at ht with hc
    · omega
    · exact char_toNat_inj ht
  · rintro rfl
    unfold asciiLower
    rw [if_neg hd2]

lemma asciiLower_eq_pct (c : Char) : asciiLower c = '%' ↔ c = '%' :=
  asciiLower_eq_iff (by decide) (by decide) c

lemma asciiLower_eq_underscore (c : Char) : asciiLower c = '_' ↔ c = '_' :=
  asciiLower_eq_iff (by decide) (by decide) c

lemma asciiLower_eq_star (c : Char) : asciiLower c = '*' ↔ c = '*' :=
  asciiLower_eq_iff (by decide) (by decide) c

lemma starToPct_asciiLower (c : Char) :
    asciiLower (starToPct c) = starToPct (asciiLower c) := by
  by_cases h : c = '*'
  · subst h; decide
  · have h1 : starToPct c = c := by simp [starToPct, h]
    have h2 : asciiLower c ≠ '*' := fun hc => h ((asciiLower_eq_star c).mp hc)
    rw [h1]
    simp [starToPct, h2]

lemma not_mem_map_asciiLower_pct {term : List Char} (h : '%' ∉ term) :
    '%' ∉ term.map asciiLower := by
  intro hc
  obtain ⟨c, hcm, he⟩ := List.mem_map.mp hc
  exact h (((asciiLower_eq_pct c).mp he) ▸ hcm)

lemma not_mem_map_asciiLower_underscore {term : List Char} (h : '_' ∉ term) :
    '_' ∉ term.map asciiLower := by
  intro hc
  obtain ⟨c, hcm, he⟩ := List.mem_map.mp hc
  exact h (((asciiLower_eq_underscore c).mp he) ▸ hcm)

lemma likeMatch_starToPct :
    ∀ (term : List Char), '%' ∉ term → '_' ∉ term →
      ∀ t, likeMatch (term.map starToPct) t = globMatch term t := by
  intro term
  induction term with
  | nil => intro _ _ t; rfl
  | cons c cs ih =>
    intro h1 h2 t
    have h1' : '%' ∉ cs := fun h => h1 (List.mem_cons_of_mem _ h)
    have h2' : '_' ∉ cs := fun h => h2 (List.mem_cons_of_mem _ h)
    have hc1 : c ≠ '%' := fun h => h1 (h ▸ List.mem_cons_self ..)
    have hc2 : c ≠ '_' := fun h => h2 (h ▸ List.mem_cons_self ..)
    by_cases hstar : c = '*'
    · subst hstar
      rw [List.map_cons, show starToPct '*' = '%' from by decide,
        likeMatch, if_pos rfl, globMatch, if_pos rfl]
      exact congrArg t.tails.any (funext fun s => ih h1' h2' s)
    · have hc : starToPct c = c := by simp [starToPct, hstar]
      rw [List.map_cons, hc, likeMatch, globMatch,
        if_neg hc1, if_neg hc2, if_neg hstar, ih h1' h2' t.tail]

lemma likeMatch_append_pct :
    ∀ (q : List Char), '%' ∉ q → '_' ∉ q →
      ∀ s, likeMatch (q ++ ['%']) s = q.isPrefixOf s := by
  intro q
  induction q with
  | nil =>
    intro _ _ s
    rw [List.nil_append, likeMatch, if_pos rfl]
    have h1 : s.tails.any (fun x => likeMatch [] x) = true := by
      rw [List.any_eq_true]
      exact ⟨[], (List.mem_tails [] s).mpr List.nil_suffix, rfl⟩
    rw [h1]
    cases s <;> rfl
  | cons c q ih =>
    intro h1 h2 s
    have h1' : '%' ∉ q := fun h => h1 (List.mem_cons_of_mem _ h)
    have h2' : '_' ∉ q := fun h => h2 (List.mem_cons_of_mem _ h)
    have hc1 : c ≠ '%' := fun h => h1 (h ▸ List.mem_cons_self ..)
    have hc2 : c ≠ '_' := fun h => h2 (h ▸ List.mem_cons_self ..)
    rw [List.cons_append, likeMatch, if_neg hc1, if_neg hc2,
      ih h1' h2' s.tail]
    cases s with
    | nil => rfl
    | cons d ds => rfl

lemma likeLower_doSearchPattern {term : List Char}
    (h1 : '_' ∉ term) (h2 : '%' ∉ term) (field : String) :
    likeLower (doSearchPattern term) field = specFieldMatch term field.data := by
  unfold likeLower doSearchPattern specFieldMatch
  by_cases hstar : term.contains '*'
  · rw [if_pos hstar, if_pos hstar]
    have hcomm : (term.map starToPct).map asciiLower =
        (term.map asciiLower).map starToPct := by
      rw [List.map_map, List.map_map]
      exact List.map_congr_left (fun c _ => starToPct_asciiLower c)
    rw [hcomm]
    exact likeMatch_starToPct (term.map asciiLower)
      (not_mem_map_asciiLower_pct h2) (not_mem_map_asciiLower_underscore h1) _
  · rw [if_neg hstar, if_neg hstar]
    have hsid : term.map starToPct = term := by
      have hnostar : '*' ∉ term := by simpa using hstar
      have hid : ∀ c ∈ term, starToPct c = id c := by
        intro c hc
        have : c ≠ '*' := fun h => hnostar (h ▸ hc)
        simp [starToPct, this]
      rw [List.map_congr_left hid, List.map_id]
    rw [hsid, List.map_cons, List.map_append,
      show asciiLower '%' = '%' from by decide,
      show List.map asciiLower ['%'] = ['%'] from by decide,
      likeMatch, if_pos rfl]
    unfold infixOfB
    exact congrArg _ (funext fun s =>
      likeMatch_append_pct (term.map asciiLower)
        (not_mem_map_asciiLower_pct h2)
        (not_mem_map_asciiLower_underscore h1) s)

lemma rowMatches_eq_specMatches {term : List Char}
    (h1 : '_' ∉ term) (h2 : '%' ∉ term) (c : Conversation) :
    rowMatches (doSearchPattern term) c = specMatches term c := by
  unfold rowMatches specMatches
  cases c.llm_response <;> simp [likeLower_doSearchPattern h1 h2]

/-- One node whose subject is "abc". -/
def c8store : DBState :=
  { conversations := [mkConv 1 none 1 "abc"], links := [], seq := 1 }

/-- C8 counterexample: the search term `a_c` contains no `*`, so by the
claim it should match only as a plain substring; the spec matcher rejects
the node with subject "abc", yet the code's search returns it, because the
term reaches SQL LIKE unescaped and `_` acts as a single-character
wildcard. -/
theorem c8_counterexample :
    (do_search c8store ['a', '_', 'c']).map (·.id) = [1] ∧
    specMatches ['a', '_', 'c'] (mkConv 1 none 1 "abc") = false := by
  constructor
  · rfl
  · rfl

/-- C8 amended: for search terms free of the SQL LIKE metacharacters `_`
and `%` (which the code passes through unescaped), search returns exactly
the rows matched per the spec — ASCII-case-insensitively, by glob when the
term contains `*` and as a plain substring otherwise — ordered by
`user_prompt_timestamp` descending. -/
theorem c8_search_semantics (st : DBState) (term : List Char)
    (h1 : '_' ∉ term) (h2 : '%' ∉ term) :
    (∀ c, c ∈ do_search st term ↔
      c ∈ st.conversations ∧ specMatches term c = true) ∧
    List.Sorted tsGE (do_search st term) := by
  constructor
  · intro c
    unfold do_search search_conversations
    rw [(List.perm_insertionSort tsGE _).mem_iff, List.mem_filter,
      rowMatches_eq_specMatches h1 h2]
  · exact List.sorted_insertionSort tsGE _

/-- Witness for C8's amended statement at a concrete store and term. -/
theorem c8_witness :
    ('_' ∉ ['b', 'c']) ∧ ('%' ∉ ['b', 'c']) ∧
    ((∀ c, c ∈ do_search c8store ['b', 'c'] ↔
        c ∈ c8store.conversations ∧ specMatches ['b', 'c'] c = true) ∧
      List.Sorted tsGE (do_search c8store ['b', 'c'])) :=
  ⟨by decide, by decide,
    c8_search_semantics c8store ['b', 'c'] (by decide) (by decide)⟩

end Promptree
